import Mathlib

/-!
Verification of the in-memory configuration store (`src/config.rs`) and the
demo loader (`examples/config_manager.rs`).

The Rust `HashMap<String, String>` is embedded as an association list
`List (String × String)`; a real `HashMap` has pairwise-distinct keys, which
the embedding tracks with the predicate `keysNodup`.  Lookup (`HashMap::get`),
membership (`HashMap::contains_key`) and insertion (`HashMap::insert`, which
overwrites the entry of an existing key) are modelled by `HMap.getVal`,
`HMap.containsKey` and `HMap.insertKV`.  The `Repository` struct and its four
`ConfigContract` operations `has`/`get`/`set`/`all` are carried over directly.

The demo loader's per-line processing (`line.split("=")` followed by indexing
`parts[0]` and `parts[1]`) is embedded at the character-list level by
`splitEq` and `parseLine`; the out-of-bounds panic on `parts[1]` is modelled
as the `none` result of `parseLine`.
-/

/-- Association-list embedding of Rust's `HashMap<String, String>`. -/
abbrev HMap := List (String × String)

/-- `HashMap::contains_key`: whether some entry's key equals `k`. -/
def HMap.containsKey (m : HMap) (k : String) : Bool :=
  m.any (fun p => p.1 == k)

/-- `HashMap::get(k).map(...)`: the value of the first entry whose key is `k`. -/
def HMap.getVal (m : HMap) (k : String) : Option String :=
  (m.find? (fun p => p.1 == k)).map (fun p => p.2)

/-- `HashMap::insert(k, v)`: overwrite the entry of an existing key `k`,
otherwise add a new entry. -/
def HMap.insertKV (m : HMap) (k v : String) : HMap :=
  match m with
  | [] => [(k, v)]
  | p :: rest => if p.1 == k then (k, v) :: rest else p :: HMap.insertKV rest k v

/-- The keys of the map are pairwise distinct — true of every real `HashMap`. -/
def keysNodup (m : HMap) : Prop :=
  (m.map Prod.fst).Nodup

instance (m : HMap) : Decidable (keysNodup m) := by
  unfold keysNodup; infer_instance

/-- `pub struct Repository { items: HashMap<String, String> }`. -/
structure Repository where
  items : HMap

/-- `Repository::new(items)`: wraps the given mapping. -/
def Repository.new (items : HMap) : Repository :=
  ⟨items⟩

/-- `fn has(&self, key) -> bool { self.items.contains_key(key) }`. -/
def Repository.has (r : Repository) (key : String) : Bool :=
  r.items.containsKey key

/-- `fn get(&self, key) -> Option<&str> { self.items.get(key).map(|s| s.as_str()) }`.
`as_str` does not change the text, so the embedded map step is the identity. -/
def Repository.get (r : Repository) (key : String) : Option String :=
  (r.items.getVal key).map id

/-- `fn set(&mut self, key, value) { self.items.insert(key.to_string(), value.to_string()) }`,
in state-passing style: the updated repository is returned. -/
def Repository.set (r : Repository) (key value : String) : Repository :=
  ⟨r.items.insertKV key value⟩

/-- `fn all(&self) -> &HashMap<String, String> { &self.items }`. -/
def Repository.all (r : Repository) : HMap :=
  r.items

/-- A finite sequence of `set(k, v)` calls, applied left to right. -/
def applySets (r : Repository) (ops : List (String × String)) : Repository :=
  ops.foldl (fun acc p => acc.set p.1 p.2) r

/-- Spec-side: the value of the last write to `k` in the sequence `ops`,
if any (later entries of `ops` win). -/
def lastWrite (ops : List (String × String)) (k : String) : Option String :=
  match ops with
  | [] => none
  | (k', v') :: rest =>
    match lastWrite rest k with
    | some v => some v
    | none => if k' = k then some v' else none

/-- Spec-side: lookup in "`M` overlaid left-to-right with the writes `ops`":
the last value written for `k` when `ops` writes `k`, else `M`'s value. -/
def overlayLookup (M : HMap) (ops : List (String × String)) (k : String) :
    Option String :=
  match lastWrite ops k with
  | some v => some v
  | none => M.getVal k

/-- The store states reachable from an initial mapping (with distinct keys,
as any `HashMap` has) through the four contract operations; only `set`
changes the state. -/
inductive Reachable : Repository → Prop where
  | init (M : HMap) (h : keysNodup M) : Reachable (Repository.new M)
  | step (r : Repository) (k v : String) (h : Reachable r) :
      Reachable (r.set k v)

/-- `line.split("=")` from the demo loader, on the line's characters:
the segments of the line between occurrences of the character sign
of equality.  `"".split("=")` yields one empty segment. -/
def splitEq : List Char → List (List Char)
  | [] => [[]]
  | c :: rest =>
    if c = '=' then [] :: splitEq rest
    else (c :: (splitEq rest).headI) :: (splitEq rest).tail

/-- The demo loader's per-line processing:
`let parts: Vec<&str> = line.split("=").collect(); items.insert(parts[0], parts[1])`.
The inserted pair is `(parts[0], parts[1])`; the out-of-bounds panic when
`parts[1]` does not exist is modelled as `none`. -/
def parseLine (line : List Char) : Option (List Char × List Char) :=
  let parts := splitEq line
  match parts[0]?, parts[1]? with
  | some k, some v => some (k, v)
  | _, _ => none

theorem getVal_insertKV_self (m : HMap) (k v : String) :
    (m.insertKV k v).getVal k = some v := by
  induction m with
  | nil => simp [HMap.insertKV, HMap.getVal]
  | cons p rest ih =>
    by_cases h : p.1 = k
    · simp [HMap.insertKV, HMap.getVal, h]
    · simp only [HMap.insertKV, HMap.getVal] at ih ⊢
      simp [h, List.find?, ih]

theorem getVal_insertKV_ne (m : HMap) (k v k' : String) (hne : k' ≠ k) :
    (m.insertKV k v).getVal k' = m.getVal k' := by
  have hb : (k == k') = false := beq_eq_false_iff_ne.mpr (Ne.symm hne)
  induction m with
  | nil => simp [HMap.insertKV, HMap.getVal, List.find?, hb]
  | cons p rest ih =>
    by_cases h : p.1 = k
    · simp [HMap.insertKV, HMap.getVal, List.find?, h, hb]
    · have hb1 : (p.1 == k) = false := beq_eq_false_iff_ne.mpr h
      by_cases h2 : p.1 = k'
      · have hb2 : (p.1 == k') = true := by simp [h2]
        simp [HMap.insertKV, HMap.getVal, List.find?, hb1, hb2]
      · have hb2 : (p.1 == k') = false := beq_eq_false_iff_ne.mpr h2
        simp only [HMap.insertKV, HMap.getVal] at ih ⊢
        simp [List.find?, hb1, hb2, ih]

theorem insertKV_insertKV_same (m : HMap) (k v : String) :
    (m.insertKV k v).insertKV k v = m.insertKV k v := by
  induction m with
  | nil => simp [HMap.insertKV]
  | cons p rest ih =>
    by_cases h : p.1 = k
    · simp [HMap.insertKV, h]
    · simp [HMap.insertKV, h, ih]

theorem map_fst_insertKV (m : HMap) (k v : String) :
    (m.insertKV k v).map Prod.fst =
      if m.containsKey k then m.map Prod.fst else m.map Prod.fst ++ [k] := by
  induction m with
  | nil => simp [HMap.insertKV, HMap.containsKey]
  | cons p rest ih =>
    by_cases h : p.1 = k
    · simp [HMap.insertKV, HMap.containsKey, h]
    · have hb : (p.1 == k) = false := beq_eq_false_iff_ne.mpr h
      cases hc : (rest.any fun p => p.1 == k) with
      | true =>
        simp only [HMap.containsKey] at ih ⊢
        simp [HMap.insertKV, hb, hc, ih]
      | false =>
        simp only [HMap.containsKey] at ih ⊢
        simp [HMap.insertKV, hb, hc, ih]

theorem containsKey_eq_mem (m : HMap) (k : String) :
    m.containsKey k = true ↔ k ∈ m.map Prod.fst := by
  induction m with
  | nil => simp [HMap.containsKey]
  | cons p rest ih =>
    simp only [HMap.containsKey, List.any_cons, List.map_cons, List.mem_cons,
      Bool.or_eq_true, beq_iff_eq] at ih ⊢
    constructor
    · rintro (h | h)
      · exact Or.inl h.symm
      · exact Or.inr (ih.mp h)
    · rintro (h | h)
      · exact Or.inl h.symm
      · exact Or.inr (ih.mpr h)

theorem keysNodup_insertKV (m : HMap) (k v : String) (h : keysNodup m) :
    keysNodup (m.insertKV k v) := by
  unfold keysNodup at h ⊢
  rw [map_fst_insertKV]
  by_cases hc : HMap.containsKey m k = true
  · rw [if_pos hc]; exact h
  · have hk : k ∉ m.map Prod.fst := fun hmem => hc ((containsKey_eq_mem m k).mpr hmem)
    rw [if_neg hc, List.nodup_append]
    refine ⟨h, List.nodup_singleton k, ?_⟩
    intro a ha hak
    rw [List.mem_singleton] at hak
    exact hk (hak ▸ ha)

theorem containsKey_eq_isSome_getVal (m : HMap) (k : String) :
    m.containsKey k = (m.getVal k).isSome := by
  induction m with
  | nil => simp [HMap.containsKey, HMap.getVal]
  | cons p rest ih =>
    by_cases h : p.1 = k
    · simp [HMap.containsKey, HMap.getVal, List.find?, h]
    · have hb : (p.1 == k) = false := beq_eq_false_iff_ne.mpr h
      simp only [HMap.containsKey, HMap.getVal] at ih ⊢
      simp [List.find?, List.any_cons, hb, ih]

theorem splitEq_ne_nil (l : List Char) : splitEq l ≠ [] := by
  cases l with
  | nil => simp [splitEq]
  | cons c rest =>
    by_cases h : c = '='
    · simp [splitEq, h]
    · simp [splitEq, h]

theorem splitEq_of_not_mem (l : List Char) (h : '=' ∉ l) : splitEq l = [l] := by
  induction l with
  | nil => rfl
  | cons c rest ih =>
    have h1 : ¬ c = '=' := fun hh => h (by simp [hh])
    have h2 : '=' ∉ rest := fun hh => h (List.mem_cons_of_mem c hh)
    simp [splitEq, h1, ih h2]

theorem headI_splitEq (l : List Char) :
    (splitEq l).headI = l.takeWhile (fun c => c != '=') := by
  induction l with
  | nil => simp [splitEq]
  | cons c rest ih =>
    by_cases h : c = '='
    · simp [splitEq, h, List.takeWhile_cons]
    · simp [splitEq, h, List.takeWhile_cons, ih]

theorem getElem_zero_splitEq (l : List Char) :
    (splitEq l)[0]? = some (l.takeWhile (fun c => c != '=')) := by
  have h := headI_splitEq l
  cases hs : splitEq l with
  | nil => exact absurd hs (splitEq_ne_nil l)
  | cons s ss =>
    rw [hs] at h
    simp only [List.headI] at h
    simp [h]

theorem splitEq_of_mem (l : List Char) (h : '=' ∈ l) :
    splitEq l = l.takeWhile (fun c => c != '=') ::
      splitEq ((l.dropWhile (fun c => c != '=')).tail) := by
  induction l with
  | nil => exact absurd h (List.not_mem_nil '=')
  | cons c rest ih =>
    by_cases hc : c = '='
    · subst hc
      simp [splitEq, List.takeWhile_cons, List.dropWhile_cons]
    · have hrest : '=' ∈ rest := by
        rcases List.mem_cons.mp h with h1 | h1
        · exact absurd h1.symm hc
        · exact h1
      simp [splitEq, hc, List.takeWhile_cons, List.dropWhile_cons, ih hrest]

theorem applySets_cons (r : Repository) (p : String × String)
    (rest : List (String × String)) :
    applySets r (p :: rest) = applySets (r.set p.1 p.2) rest := by
  simp [applySets]

theorem applySets_getVal (ops : List (String × String)) :
    ∀ (r : Repository) (k : String),
      ((applySets r ops).all).getVal k = overlayLookup r.items ops k := by
  induction ops with
  | nil =>
    intro r k
    simp [applySets, Repository.all, overlayLookup, lastWrite]
  | cons p rest ih =>
    intro r k
    obtain ⟨k', v'⟩ := p
    rw [applySets_cons, ih]
    simp only [overlayLookup, lastWrite]
    cases hl : lastWrite rest k with
    | some v => simp [hl]
    | none =>
      by_cases hk : k' = k
      · subst hk
        simp [hl, Repository.set, getVal_insertKV_self]
      · simp [hl, hk, Repository.set,
          getVal_insertKV_ne r.items k' v' k (Ne.symm hk)]

theorem keysNodup_applySets (ops : List (String × String)) :
    ∀ (r : Repository), keysNodup r.items → keysNodup (applySets r ops).items := by
  induction ops with
  | nil =>
    intro r h
    simpa [applySets] using h
  | cons p rest ih =>
    intro r h
    rw [applySets_cons]
    exact ih _ (keysNodup_insertKV _ _ _ h)

/-- C1: a store built by `Repository::new(M)` answers `get(k)` with exactly
the initial mapping's lookup result for `k` — `Some` of `M`'s value when `k`
is in `M`, and `None` otherwise. -/
theorem new_get_eq_initial_lookup (M : HMap) (k : String) :
    (Repository.new M).get k = M.getVal k ∧
      ((Repository.new M).get k).isSome = M.containsKey k := by
  constructor
  · cases hx : M.getVal k <;> simp [Repository.get, Repository.new, hx]
  · cases hx : M.getVal k <;>
      simp [Repository.get, Repository.new, hx, containsKey_eq_isSome_getVal]

/-- C2: `set(k, v1)` followed by `set(k, v2)` leaves `get(k) = Some(v2)`:
`set` overwrites the previous value with no merge. -/
theorem set_set_overwrite (r : Repository) (k v1 v2 : String) :
    ((r.set k v1).set k v2).get k = some v2 := by
  simp [Repository.set, Repository.get, getVal_insertKV_self]

/-- C3: after any sequence of `set` calls on `Repository::new(M)`, `all()`
is exactly `M` overlaid left-to-right with the sequence — every key reads as
its last written value (or `M`'s value when never written), and the keys
stay pairwise distinct (no entry duplicated). -/
theorem all_after_sets_eq_overlay (M : HMap) (h : keysNodup M)
    (ops : List (String × String)) (k : String) :
    ((applySets (Repository.new M) ops).all).getVal k = overlayLookup M ops k ∧
      keysNodup ((applySets (Repository.new M) ops).all) :=
  ⟨applySets_getVal ops (Repository.new M) k,
    keysNodup_applySets ops (Repository.new M) h⟩

/-- C3 witness: the overlay description evaluated on the concrete initial
mapping `[("a", "1")]` and the write sequence `[("b", "2"), ("a", "3")]`. -/
theorem all_after_sets_eq_overlay_witness :
    keysNodup [("a", "1")] ∧
      (((applySets (Repository.new [("a", "1")]) [("b", "2"), ("a", "3")]).all).getVal "a" =
          overlayLookup [("a", "1")] [("b", "2"), ("a", "3")] "a" ∧
        keysNodup ((applySets (Repository.new [("a", "1")]) [("b", "2"), ("a", "3")]).all)) :=
  ⟨by decide,
    all_after_sets_eq_overlay [("a", "1")] (by decide) [("b", "2"), ("a", "3")] "a"⟩

/-- C4: `Repository::new(M).has(k)` is true exactly when `k` is a key of the
initial mapping `M`. -/
theorem new_has_eq_initial_contains (M : HMap) (k : String) :
    (Repository.new M).has k = M.containsKey k := rfl

/-- C5 counterexample: the claim says the loader keeps the entire remainder
after the first sign of equality as the value; on the line with characters
a, =, b, =, c, the loader actually stores the pair with value b, not b=c. -/
theorem loader_value_is_second_segment_counterexample :
    parseLine ['a', '=', 'b', '=', 'c'] = some (['a'], ['b']) ∧
      (['b'] : List Char) ≠ ['b', '=', 'c'] := by
  constructor
  · rfl
  · decide

/-- C5 (amended): the loader splits the line at every occurrence of the sign
of equality; the key is the segment before the first occurrence and the value
is the segment between the first and the second occurrence (or to the end of
the line if there is no second occurrence) — text after a second occurrence
is dropped, not kept in the value. -/
theorem loader_splits_at_every_eq (line : List Char) (h : '=' ∈ line) :
    parseLine line =
      some (line.takeWhile (fun c => c != '='),
        ((line.dropWhile (fun c => c != '=')).tail).takeWhile (fun c => c != '=')) := by
  unfold parseLine
  rw [splitEq_of_mem line h]
  simp [getElem_zero_splitEq]

/-- C5 (amended) witness: the amended description evaluated on the concrete
line with characters a, =, b, =, c. -/
theorem loader_splits_at_every_eq_witness :
    '=' ∈ ['a', '=', 'b', '=', 'c'] ∧
      parseLine ['a', '=', 'b', '=', 'c'] = some (['a'], ['b']) :=
  ⟨by decide, by
    have h := loader_splits_at_every_eq ['a', '=', 'b', '=', 'c'] (by decide)
    simpa using h⟩

/-- C6: on a line with no sign of equality (the empty line included), the
split result has exactly one segment, the index 1 is past its end (the
out-of-bounds panic), and no entry is produced. -/
theorem loader_no_eq_out_of_bounds (line : List Char) (h : '=' ∉ line) :
    (splitEq line).length = 1 ∧ (splitEq line)[1]? = none ∧
      parseLine line = none := by
  have hs := splitEq_of_not_mem line h
  refine ⟨by simp [hs], by simp [hs], ?_⟩
  simp [parseLine, hs]

/-- C6 witness: the out-of-bounds behaviour evaluated on the empty line. -/
theorem loader_no_eq_out_of_bounds_witness :
    '=' ∉ ([] : List Char) ∧
      ((splitEq []).length = 1 ∧ (splitEq [])[1]? = none ∧
        parseLine [] = none) :=
  ⟨by decide, loader_no_eq_out_of_bounds [] (by decide)⟩

/-- C7 counterexample: the claim requires every key of a reachable state to
be non-empty text, but the state reached from the empty mapping by
`set("", "v")` is reachable and holds the empty key — no operation validates
key content. -/
theorem reachable_empty_key_counterexample :
    Reachable ((Repository.new []).set "" "v") ∧
      "" ∈ ((((Repository.new []).set "" "v").items).map Prod.fst) := by
  constructor
  · exact Reachable.step _ "" "v" (Reachable.init [] (by decide))
  · decide

/-- C7 (amended): in every store state reachable from an initial mapping
with pairwise-distinct keys via the four operations, the keys of `items`
remain pairwise distinct (each key maps to exactly one value); keys are not
required to be non-empty — the empty key can be stored. -/
theorem reachable_keys_unique (r : Repository) (h : Reachable r) :
    keysNodup r.items := by
  induction h with
  | init M hM => exact hM
  | step r k v hr ih => exact keysNodup_insertKV _ _ _ ih

/-- C7 (amended) witness: key uniqueness at the concrete reachable state
obtained from the empty mapping by `set("a", "1")`. -/
theorem reachable_keys_unique_witness :
    Reachable ((Repository.new []).set "a" "1") ∧
      keysNodup (((Repository.new []).set "a" "1").items) :=
  have hr : Reachable ((Repository.new []).set "a" "1") :=
    Reachable.step _ "a" "1" (Reachable.init [] (by decide))
  ⟨hr, reachable_keys_unique _ hr⟩

/-- C8: calling `set(k, v)` twice in succession yields the same observable
state — the same `has`, `get` and `all` answers at every key — as calling it
once. -/
theorem set_idempotent_observably (r : Repository) (k v k' : String) :
    (((r.set k v).set k v).has k' = (r.set k v).has k') ∧
      (((r.set k v).set k v).get k' = (r.set k v).get k') ∧
      ((((r.set k v).set k v).all).getVal k' = ((r.set k v).all).getVal k') := by
  have h := insertKV_insertKV_same r.items k v
  simp [Repository.set, Repository.has, Repository.get, Repository.all, h]

/-- C9: the operations are total — for every state and all key and value
strings, with no hypothesis on their content (empty strings, whitespace and
re-insertion of an existing key included), `set` succeeds silently and the
written entry is visible to `get` and `has`. -/
theorem set_total_no_validation (r : Repository) (k v : String) :
    (r.set k v).get k = some v ∧ (r.set k v).has k = true := by
  constructor
  · simp [Repository.set, Repository.get, getVal_insertKV_self]
  · simp [Repository.has, Repository.set, containsKey_eq_isSome_getVal,
      getVal_insertKV_self]

/-- C10: the three read operations are mutually consistent views of the one
underlying mapping — `has(k)` is true exactly when `get(k)` is `Some`, and
`get(k)` equals the entry for `k` in the mapping returned by `all()`. -/
theorem read_views_consistent (r : Repository) (k : String) :
    (r.has k = true ↔ ((r.get k).isSome = true)) ∧
      r.get k = (r.all).getVal k := by
  constructor
  · rw [Repository.has, containsKey_eq_isSome_getVal]
    cases hx : r.items.getVal k <;> simp [Repository.get, hx]
  · cases hx : r.items.getVal k <;> simp [Repository.get, Repository.all, hx]
